import Mathlib

/-!
# Verification of the crypton GOST 28147-89 cipher library

Shallow embedding of `src/cryptographer.cpp` and `src/randomgen.cpp`
(classes `Cryptographer` and `RandomGen`) over `Nat`, with machine-integer
truncation written as explicit `% 2 ^ w`, and theorems settling the
specification claims about the block cipher, its stream modes, the MAC and
the random-generator helpers.

Buffers (`uint8 *` + size) are embedded as `List Nat` of byte values.
`memcpy` between a byte buffer and a `uint64` is little-endian (the
library manipulates whole 64-bit blocks and converts back symmetrically,
so the byte order is only required to be consistent).
-/

namespace Crypton

/-- Little-endian byte list to a natural number, as `memcpy(&block, data, n)`
into a `uint64` on a little-endian host (a short list gives the zero-padded
block the C code builds with `block = 0; memcpy(&block, ..., tail_size)`). -/
def bytesToU64 : List Nat → Nat
  | [] => 0
  | b :: rest => b + 256 * bytesToU64 rest

/-- The `k` low little-endian bytes of `n`, as `memcpy(data, &block, k)`. -/
def toBytes : Nat → Nat → List Nat
  | 0, _ => []
  | k + 1, n => n % 256 :: toBytes k (n / 256)

theorem length_toBytes (k n : Nat) : (toBytes k n).length = k := by
  induction k generalizing n with
  | zero => rfl
  | succ k ih => simp [toBytes, ih]

theorem mem_toBytes_lt {k n b : Nat} (h : b ∈ toBytes k n) : b < 256 := by
  induction k generalizing n with
  | zero => simp [toBytes] at h
  | succ k ih =>
    simp only [toBytes, List.mem_cons] at h
    rcases h with h | h
    · subst h; exact Nat.mod_lt _ (by norm_num)
    · exact ih h

theorem bytesToU64_toBytes (k n : Nat) :
    bytesToU64 (toBytes k n) = n % 2 ^ (8 * k) := by
  induction k generalizing n with
  | zero => simp [toBytes, bytesToU64, Nat.mod_one]
  | succ k ih =>
    have h2 : (2 : Nat) ^ (8 * (k + 1)) = 256 * 2 ^ (8 * k) := by ring
    rw [toBytes, bytesToU64, ih, h2, Nat.mod_mul]

theorem toBytes_bytesToU64 {bl : List Nat} (hb : ∀ b ∈ bl, b < 256) :
    toBytes bl.length (bytesToU64 bl) = bl := by
  induction bl with
  | nil => rfl
  | cons b rest ih =>
    have hblt : b < 256 := hb b (by simp)
    have hmod : (b + 256 * bytesToU64 rest) % 256 = b := by
      rw [Nat.add_mul_mod_self_left, Nat.mod_eq_of_lt hblt]
    have hdiv : (b + 256 * bytesToU64 rest) / 256 = bytesToU64 rest := by
      rw [Nat.add_mul_div_left _ _ (by norm_num : (0:Nat) < 256),
        Nat.div_eq_of_lt hblt, Nat.zero_add]
    simp only [List.length_cons, toBytes, bytesToU64, hmod, hdiv]
    exact congrArg (b :: ·) (ih fun x hx => hb x (List.mem_cons_of_mem _ hx))

theorem toBytes_take {j k : Nat} (h : j ≤ k) (n : Nat) :
    (toBytes k n).take j = toBytes j n := by
  induction k generalizing j n with
  | zero => interval_cases j; rfl
  | succ k ih =>
    cases j with
    | zero => rfl
    | succ j => simp only [toBytes, List.take_succ_cons, ih (Nat.le_of_succ_le_succ h)]

theorem toBytes_congr {k n m : Nat} (h : n % 2 ^ (8 * k) = m % 2 ^ (8 * k)) :
    toBytes k n = toBytes k m := by
  induction k generalizing n m with
  | zero => rfl
  | succ k ih =>
    have h2 : (2 : Nat) ^ (8 * (k + 1)) = 256 * 2 ^ (8 * k) := by ring
    rw [h2, Nat.mod_mul, Nat.mod_mul] at h
    have hn : n % 256 < 256 := Nat.mod_lt _ (by norm_num)
    have hm : m % 256 < 256 := Nat.mod_lt _ (by norm_num)
    have h1 : n % 256 = m % 256 := by omega
    have h3 : n / 256 % 2 ^ (8 * k) = m / 256 % 2 ^ (8 * k) := by omega
    simp only [toBytes, h1, ih h3]

theorem bytesToU64_lt {bl : List Nat} (hb : ∀ b ∈ bl, b < 256) :
    bytesToU64 bl < 2 ^ (8 * bl.length) := by
  induction bl with
  | nil => simp [bytesToU64]
  | cons b rest ih =>
    have hblt : b < 256 := hb b (by simp)
    have hrest : bytesToU64 rest < 2 ^ (8 * rest.length) :=
      ih fun x hx => hb x (List.mem_cons_of_mem _ hx)
    have h2 : (2 : Nat) ^ (8 * (b :: rest).length) = 256 * 2 ^ (8 * rest.length) := by
      simp only [List.length_cons]; ring
    rw [bytesToU64, h2]; omega

/-- `(a ^^^ b) % 2 ^ n` in terms of the reduced arguments. -/
theorem xor_mod_two_pow (a b n : Nat) :
    (a ^^^ b) % 2 ^ n = (a % 2 ^ n) ^^^ (b % 2 ^ n) := by
  apply Nat.eq_of_testBit_eq
  intro i
  simp only [Nat.testBit_mod_two_pow, Nat.testBit_xor]
  by_cases h : i < n <;> simp [h]

theorem xor_xor_cancel (a b : Nat) : (a ^^^ b) ^^^ b = a := by
  rw [Nat.xor_assoc, Nat.xor_self, Nat.xor_zero]

/-- `x & 0xffffffff`, the low-half extraction used throughout the cipher. -/
theorem and_low_mask (x : Nat) : x &&& 0xffffffff = x % 2 ^ 32 := by
  have h : (0xffffffff : Nat) = 2 ^ 32 - 1 := by norm_num
  rw [h, Nat.and_pow_two_sub_one_eq_mod]

/-- `(x & 0xffffffff00000000) >> 32`, the high-half extraction used throughout. -/
theorem and_high_mask (x : Nat) :
    (x &&& 0xffffffff00000000) >>> 32 = x / 2 ^ 32 % 2 ^ 32 := by
  have hmask : (0xffffffff00000000 : Nat) = (2 ^ 32 - 1) <<< 32 := by
    rw [Nat.shiftLeft_eq]; norm_num
  apply Nat.eq_of_testBit_eq
  intro i
  rw [hmask]
  simp only [Nat.testBit_shiftRight, Nat.testBit_and, Nat.testBit_shiftLeft,
    Nat.testBit_two_pow_sub_one, Nat.testBit_mod_two_pow]
  have hdiv : (x / 2 ^ 32).testBit i = x.testBit (32 + i) := by
    rw [← Nat.shiftRight_eq_div_pow, Nat.testBit_shiftRight]
  rw [hdiv]
  by_cases h : i < 32 <;> simp [h, Nat.add_sub_cancel_left]

/-- `(hi << 32) | lo` with a 32-bit `lo` is exact addition. -/
theorem shiftLeft_or_eq_add {lo : Nat} (hi : Nat) (h : lo < 2 ^ 32) :
    (hi <<< 32) ||| lo = 2 ^ 32 * hi + lo := by
  rw [Nat.shiftLeft_eq, Nat.mul_comm hi (2 ^ 32), Nat.mul_add_lt_is_or h]

/-! ## The cipher engine (`Cryptographer`)

The key is embedded as a function `Nat → Nat` (the C `uint32 m_key[8]`,
accessed only at indices 0..7) and the substitution table as
`Nat → Nat → Nat` (the C `uint8 m_replace_table[8][16]`, accessed only at
in-range indices). Claims that need the machine-type ranges state them as
hypotheses. -/

/-- The nibble mask array `mask[8]` of `Cryptographer::mainStep`. -/
def mask : Nat → Nat
  | 0 => 0x0000000f
  | 1 => 0x000000f0
  | 2 => 0x00000f00
  | 3 => 0x0000f000
  | 4 => 0x000f0000
  | 5 => 0x00f00000
  | 6 => 0x0f000000
  | 7 => 0xf0000000
  | _ => 0

/-- Steps 1–3 of `Cryptographer::mainStep` (the part that depends only on the
low half `N1` and the key index): key addition modulo `2^32 - 1`, nibble
substitution accumulated with `+=` in a `uint32` (hence the `% 2 ^ 32` per
step), and the 11-bit left rotation of the 32-bit accumulator. -/
def stepF (key : Nat → Nat) (table : Nat → Nat → Nat) (N1 k : Nat) : Nat :=
  let S := (N1 + key k) % (2 ^ 32 - 1)
  let tmp := (List.range 8).foldl
    (fun acc i => (acc + (table i ((S &&& mask i) >>> (i * 4))) <<< (i * 4)) % 2 ^ 32) 0
  (tmp >>> (32 - 11)) ||| ((tmp <<< 11) % 2 ^ 32)

/-- `Cryptographer::mainStep`: one round. Splits the 64-bit block into halves
`N1` (low) and `N2` (high), and returns `(N1 << 32) | (stepF N1 k ^ N2)`. -/
def mainStep (key : Nat → Nat) (table : Nat → Nat → Nat) (data k : Nat) : Nat :=
  let N1 := data &&& 0xffffffff
  let N2 := (data &&& 0xffffffff00000000) >>> 32
  (N1 <<< 32) ||| (stepF key table N1 k ^^^ N2)

/-- Key schedule of the encrypt cycle `Cryptographer::cycle_32Z`: three forward
passes `j = 0..7` then one backward pass `j = 7..0`. -/
def zOrder : List Nat :=
  [0, 1, 2, 3, 4, 5, 6, 7, 0, 1, 2, 3, 4, 5, 6, 7,
   0, 1, 2, 3, 4, 5, 6, 7, 7, 6, 5, 4, 3, 2, 1, 0]

/-- Key schedule of the decrypt cycle `Cryptographer::cycle_32R`: one forward
pass `j = 0..7` then three backward passes `j = 7..0`. -/
def rOrder : List Nat :=
  [0, 1, 2, 3, 4, 5, 6, 7, 7, 6, 5, 4, 3, 2, 1, 0,
   7, 6, 5, 4, 3, 2, 1, 0, 7, 6, 5, 4, 3, 2, 1, 0]

/-- Key schedule of the MAC cycle `Cryptographer::cycle_16Z`: two forward
passes `j = 0..7`. -/
def mOrder : List Nat :=
  [0, 1, 2, 3, 4, 5, 6, 7, 0, 1, 2, 3, 4, 5, 6, 7]

/-- The final reassembly both 32-round cycles perform after their rounds:
`res = pow(N1, 32) | N2`, i.e. `(N1 << 32) | N2` with `N1` the low and `N2`
the high half — a swap of the two halves. -/
def recombine (data : Nat) : Nat :=
  let N1 := data &&& 0xffffffff
  let N2 := (data &&& 0xffffffff00000000) >>> 32
  (N1 <<< 32) ||| N2

/-- `Cryptographer::cycle_32Z`, the 32-round encrypt cycle. -/
def cycle_32Z (key : Nat → Nat) (table : Nat → Nat → Nat) (data : Nat) : Nat :=
  recombine (zOrder.foldl (mainStep key table) data)

/-- `Cryptographer::cycle_32R`, the 32-round decrypt cycle. -/
def cycle_32R (key : Nat → Nat) (table : Nat → Nat → Nat) (data : Nat) : Nat :=
  recombine (rOrder.foldl (mainStep key table) data)

/-- `Cryptographer::cycle_16Z`, the 16-round MAC cycle (no final reassembly). -/
def cycle_16Z (key : Nat → Nat) (table : Nat → Nat → Nat) (data : Nat) : Nat :=
  mOrder.foldl (mainStep key table) data

theorem stepF_lt (key : Nat → Nat) (table : Nat → Nat → Nat) (N1 k : Nat) :
    stepF key table N1 k < 2 ^ 32 := by
  unfold stepF
  have htmp : ∀ (l : List Nat) (acc : Nat), acc < 2 ^ 32 →
      l.foldl (fun acc i =>
        (acc + (table i (((N1 + key k) % (2 ^ 32 - 1) &&& mask i) >>> (i * 4))) <<< (i * 4))
          % 2 ^ 32) acc < 2 ^ 32 := by
    intro l
    induction l with
    | nil => intro acc h; exact h
    | cons x xs ih =>
      intro acc h
      exact ih _ (Nat.mod_lt _ (by norm_num))
  have h1 := htmp (List.range 8) 0 (by norm_num)
  apply Nat.or_lt_two_pow
  · rw [Nat.shiftRight_eq_div_pow]
    calc _ ≤ _ := Nat.div_le_self _ _
      _ < 2 ^ 32 := h1
  · exact Nat.mod_lt _ (by norm_num)

/-- Arithmetic normal form of one round: with `m` the low half and `h` the
high half of `data`, the round returns `2^32 * m + (stepF m k ^^^ h)`. -/
theorem mainStep_eq (key : Nat → Nat) (table : Nat → Nat → Nat) (data k : Nat) :
    mainStep key table data k =
      2 ^ 32 * (data % 2 ^ 32) +
        (stepF key table (data % 2 ^ 32) k ^^^ (data / 2 ^ 32 % 2 ^ 32)) := by
  unfold mainStep
  rw [and_low_mask, and_high_mask]
  exact shiftLeft_or_eq_add _ (Nat.xor_lt_two_pow (stepF_lt _ _ _ _)
    (Nat.mod_lt _ (by norm_num)))

/-- Arithmetic normal form of the final reassembly. -/
theorem recombine_eq (data : Nat) :
    recombine data = 2 ^ 32 * (data % 2 ^ 32) + data / 2 ^ 32 % 2 ^ 32 := by
  unfold recombine
  rw [and_low_mask, and_high_mask]
  exact shiftLeft_or_eq_add _ (Nat.mod_lt _ (by norm_num))

theorem recombine_lt (data : Nat) : recombine data < 2 ^ 64 := by
  rw [recombine_eq]
  have h1 : data % 2 ^ 32 < 2 ^ 32 := Nat.mod_lt _ (by norm_num)
  have h2 : data / 2 ^ 32 % 2 ^ 32 < 2 ^ 32 := Nat.mod_lt _ (by norm_num)
  omega

theorem recombine_recombine {data : Nat} (h : data < 2 ^ 64) :
    recombine (recombine data) = data := by
  obtain ⟨m, q, hmq, hm, hq⟩ :
      ∃ m q, data = 2 ^ 32 * q + m ∧ m < 2 ^ 32 ∧ q < 2 ^ 32 :=
    ⟨data % 2 ^ 32, data / 2 ^ 32, by omega, by omega, by omega⟩
  subst hmq
  rw [recombine_eq, recombine_eq]
  have e1 : (2 ^ 32 * q + m) % 2 ^ 32 = m := by omega
  have e2 : (2 ^ 32 * q + m) / 2 ^ 32 % 2 ^ 32 = q := by omega
  rw [e1, e2]
  omega

theorem cycle_32Z_lt (key : Nat → Nat) (table : Nat → Nat → Nat) (data : Nat) :
    cycle_32Z key table data < 2 ^ 64 := recombine_lt _

theorem cycle_32R_lt (key : Nat → Nat) (table : Nat → Nat → Nat) (data : Nat) :
    cycle_32R key table data < 2 ^ 64 := recombine_lt _

/-- The key algebraic fact behind decryption: conjugating a round by the
half-swap inverts it. -/
theorem mainStep_recombine_mainStep (key : Nat → Nat) (table : Nat → Nat → Nat)
    (data k : Nat) :
    mainStep key table (recombine (mainStep key table data k)) k = recombine data := by
  have h1 : data % 2 ^ 32 < 2 ^ 32 := Nat.mod_lt _ (by norm_num)
  have hxor : stepF key table (data % 2 ^ 32) k ^^^ (data / 2 ^ 32 % 2 ^ 32) < 2 ^ 32 :=
    Nat.xor_lt_two_pow (stepF_lt _ _ _ _) (Nat.mod_lt _ (by norm_num))
  set m := data % 2 ^ 32 with hm
  set x := stepF key table m k ^^^ (data / 2 ^ 32 % 2 ^ 32) with hx
  rw [mainStep_eq, recombine_eq, mainStep_eq, recombine_eq]
  have e1 : (2 ^ 32 * m + x) % 2 ^ 32 = x := by omega
  have e2 : (2 ^ 32 * m + x) / 2 ^ 32 % 2 ^ 32 = m := by omega
  rw [e1, e2]
  have e3 : (2 ^ 32 * x + m) % 2 ^ 32 = m := by omega
  have e4 : (2 ^ 32 * x + m) / 2 ^ 32 % 2 ^ 32 = x := by omega
  rw [e3, e4, hx, ← Nat.xor_assoc, Nat.xor_self, Nat.zero_xor]

/-- Folding the rounds backwards over the half-swapped state undoes the fold. -/
theorem foldl_mainStep_reverse (key : Nat → Nat) (table : Nat → Nat → Nat) :
    ∀ (ks : List Nat) (data : Nat),
      ks.reverse.foldl (mainStep key table)
        (recombine (ks.foldl (mainStep key table) data)) = recombine data := by
  intro ks
  induction ks with
  | nil => intro data; rfl
  | cons k t ih =>
    intro data
    rw [List.foldl_cons, List.reverse_cons, List.foldl_append, ih (mainStep key table data k)]
    exact mainStep_recombine_mainStep key table data k

theorem rOrder_eq_reverse : rOrder = zOrder.reverse := by decide

/-- The 32-round decrypt cycle inverts the 32-round encrypt cycle on every
64-bit block, for every key and substitution table. -/
theorem cycle_32R_cycle_32Z (key : Nat → Nat) (table : Nat → Nat → Nat)
    {data : Nat} (h : data < 2 ^ 64) :
    cycle_32R key table (cycle_32Z key table data) = data := by
  unfold cycle_32R cycle_32Z
  rw [rOrder_eq_reverse, foldl_mainStep_reverse, recombine_recombine h]

/-! ## The four operating modes

Each C loop `for(i = 0; i + 8 < _size; i += 8)` executes exactly
`(size - 1) / 8` iterations (it stops as soon as at most 8 bytes remain),
and the remaining 1..8 bytes — always including the last block, even a full
one — are handled by the `tail_size` branch. The loop embeddings below take
this iteration count as a structural `Nat` argument, consuming 8 bytes per
iteration, and then perform the tail step. -/

/-- Loop body of `Cryptographer::simpleReplace`: `_size / 8` full blocks, each
put through the encrypt or decrypt cycle in place. -/
def srGo (key : Nat → Nat) (table : Nat → Nat → Nat) (enc : Bool) :
    Nat → List Nat → List Nat
  | 0, l => l
  | n + 1, l =>
    toBytes 8 (if enc then cycle_32Z key table (bytesToU64 (l.take 8))
               else cycle_32R key table (bytesToU64 (l.take 8))) ++
      srGo key table enc n (l.drop 8)

/-- `Cryptographer::simpleReplace`. Returns the C `bool` result together with
the final buffer contents (unchanged when the length check fails). -/
def simpleReplace (key : Nat → Nat) (table : Nat → Nat → Nat)
    (data : List Nat) (enc : Bool) : Bool × List Nat :=
  if data.length % 8 ≠ 0 then (false, data)
  else (true, srGo key table enc (data.length / 8) data)

/-- Loop and tail of `Cryptographer::gammingWF` (gamma with feedback). The
`Nat` argument is the main-loop iteration count `(size - 1) / 8`; after the
loop the tail branch XORs the remaining bytes against the cycle of the
current synchro, zero-padding via `block = 0; memcpy(&block, ..., tail_size)`
and writing back only `tail_size` bytes — without updating `S`. -/
def gwfGo (key : Nat → Nat) (table : Nat → Nat → Nat) (enc : Bool) :
    Nat → List Nat → Nat → List Nat × Nat
  | 0, l, S =>
    if l.length = 0 then (l, S)
    else ((toBytes 8 (bytesToU64 l ^^^ cycle_32Z key table S)).take l.length, S)
  | n + 1, l, S =>
    let block := bytesToU64 (l.take 8)
    let newblock := block ^^^ cycle_32Z key table S
    let r := gwfGo key table enc n (l.drop 8) (if enc then newblock else block)
    (toBytes 8 newblock ++ r.1, r.2)

/-- `Cryptographer::gammingWF`: buffer plus in/out synchro. The C function
always returns `true`, so the `bool` is omitted. -/
def gammingWF (key : Nat → Nat) (table : Nat → Nat → Nat)
    (data : List Nat) (S : Nat) (enc : Bool) : List Nat × Nat :=
  gwfGo key table enc ((data.length - 1) / 8) data S

/-- Loop and tail of `Cryptographer::gamming` (counter gamma mode). `S0`/`S1`
are the two `uint32` counters; each loop iteration advances them — `S0` by
`C1 = 0x1010101` wrapped mod `2^32`, `S1` by `C2 = 0x1010104` minus 1, both
wrapped in the `uint32` arithmetic of `S1 + C2 - 1` (hence the inner
`% 2 ^ 32`, with `- 1` written as `+ 0xffffffff`), then reduced
mod `2^32 - 1` and shifted back into `[1, 2^32-1]` — recombines them into
`S`, and XORs the block with the encrypt cycle of `S`. The tail branch once
more reuses the current `S` without advancing the counters. -/
def gammingGo (key : Nat → Nat) (table : Nat → Nat → Nat) :
    Nat → List Nat → Nat → Nat → Nat → List Nat × Nat
  | 0, l, _, _, S =>
    if l.length = 0 then (l, S)
    else ((toBytes 8 (bytesToU64 l ^^^ cycle_32Z key table S)).take l.length, S)
  | n + 1, l, S0, S1, _ =>
    let S0n := (S0 + 0x1010101) % 2 ^ 32
    let S1n := ((S1 + 0x1010104 + 0xffffffff) % 2 ^ 32) % (2 ^ 32 - 1) + 1
    let Sn := S0n ||| (S1n <<< 32)
    let c := bytesToU64 (l.take 8) ^^^ cycle_32Z key table Sn
    let r := gammingGo key table n (l.drop 8) S0n S1n Sn
    (toBytes 8 c ++ r.1, r.2)

/-- `Cryptographer::gamming`: encrypts the synchro once, splits it into the
two counters, and runs the counter loop. Returns the buffer and the final
value of the in/out parameter `S`. -/
def gamming (key : Nat → Nat) (table : Nat → Nat → Nat)
    (data : List Nat) (Sin : Nat) : List Nat × Nat :=
  let S := cycle_32Z key table Sin
  gammingGo key table ((data.length - 1) / 8) data
    (S &&& 0xffffffff) ((S &&& 0xffffffff00000000) >>> 32) S

/-- Loop and tail of `Cryptographer::imiIns` (MAC): the accumulator `S` folds
each block through `cycle_16Z (S ^^^ block)`; the tail block is zero-padded. -/
def imiGo (key : Nat → Nat) (table : Nat → Nat → Nat) :
    Nat → List Nat → Nat → Nat
  | 0, l, S =>
    if l.length = 0 then S else cycle_16Z key table (S ^^^ bytesToU64 l)
  | n + 1, l, S =>
    imiGo key table n (l.drop 8) (cycle_16Z key table (S ^^^ bytesToU64 (l.take 8)))

/-- `Cryptographer::imiIns`: the low 32 bits of the final accumulator. -/
def imiIns (key : Nat → Nat) (table : Nat → Nat → Nat) (data : List Nat) : Nat :=
  imiGo key table ((data.length - 1) / 8) data 0 &&& 0xffffffff

theorem length_srGo (key : Nat → Nat) (table : Nat → Nat → Nat) (enc : Bool) :
    ∀ (n : Nat) (l : List Nat), 8 * n ≤ l.length →
      (srGo key table enc n l).length = l.length := by
  intro n
  induction n with
  | zero => intro l _; rfl
  | succ n ih =>
    intro l h
    have hlen : (l.drop 8).length = l.length - 8 := List.length_drop 8 l
    simp only [srGo, List.length_append, length_toBytes, ih (l.drop 8) (by omega), hlen]
    omega

theorem mem_srGo_lt (key : Nat → Nat) (table : Nat → Nat → Nat) (enc : Bool) :
    ∀ (n : Nat) (l : List Nat), (∀ b ∈ l, b < 256) →
      ∀ b ∈ srGo key table enc n l, b < 256 := by
  intro n
  induction n with
  | zero => intro l h; exact h
  | succ n ih =>
    intro l h b hb
    simp only [srGo, List.mem_append] at hb
    rcases hb with hb | hb
    · exact mem_toBytes_lt hb
    · exact ih (l.drop 8) (fun x hx => h x (List.drop_subset _ _ hx)) b hb

theorem length_gwfGo (key : Nat → Nat) (table : Nat → Nat → Nat) (enc : Bool) :
    ∀ (n : Nat) (l : List Nat) (S : Nat), n = (l.length - 1) / 8 →
      ((gwfGo key table enc n l S).1).length = l.length := by
  intro n
  induction n with
  | zero =>
    intro l S hn
    have hlen : l.length ≤ 8 := by omega
    simp only [gwfGo]
    split
    · rfl
    · simp only [List.length_take, length_toBytes]; omega
  | succ n ih =>
    intro l S hn
    have h9 : 9 ≤ l.length := by omega
    have hlen : (l.drop 8).length = l.length - 8 := List.length_drop 8 l
    simp only [gwfGo, List.length_append, length_toBytes,
      ih (l.drop 8) _ (by omega), hlen]
    omega

theorem mem_gwfGo_lt (key : Nat → Nat) (table : Nat → Nat → Nat) (enc : Bool) :
    ∀ (n : Nat) (l : List Nat) (S : Nat), (∀ b ∈ l, b < 256) →
      ∀ b ∈ (gwfGo key table enc n l S).1, b < 256 := by
  intro n
  induction n with
  | zero =>
    intro l S h b hb
    simp only [gwfGo] at hb
    split at hb
    · exact h b hb
    · exact mem_toBytes_lt (List.take_subset _ _ hb)
  | succ n ih =>
    intro l S h b hb
    simp only [gwfGo, List.mem_append] at hb
    rcases hb with hb | hb
    · exact mem_toBytes_lt hb
    · exact ih (l.drop 8) _ (fun x hx => h x (List.drop_subset _ _ hx)) b hb

theorem length_gammingGo (key : Nat → Nat) (table : Nat → Nat → Nat) :
    ∀ (n : Nat) (l : List Nat) (S0 S1 S : Nat), n = (l.length - 1) / 8 →
      ((gammingGo key table n l S0 S1 S).1).length = l.length := by
  intro n
  induction n with
  | zero =>
    intro l S0 S1 S hn
    have hlen : l.length ≤ 8 := by omega
    simp only [gammingGo]
    split
    · rfl
    · simp only [List.length_take, length_toBytes]; omega
  | succ n ih =>
    intro l S0 S1 S hn
    have h9 : 9 ≤ l.length := by omega
    have hlen : (l.drop 8).length = l.length - 8 := List.length_drop 8 l
    simp only [gammingGo, List.length_append, length_toBytes,
      ih (l.drop 8) _ _ _ (by omega), hlen]
    omega

theorem mem_gammingGo_lt (key : Nat → Nat) (table : Nat → Nat → Nat) :
    ∀ (n : Nat) (l : List Nat) (S0 S1 S : Nat), (∀ b ∈ l, b < 256) →
      ∀ b ∈ (gammingGo key table n l S0 S1 S).1, b < 256 := by
  intro n
  induction n with
  | zero =>
    intro l S0 S1 S h b hb
    simp only [gammingGo] at hb
    split at hb
    · exact h b hb
    · exact mem_toBytes_lt (List.take_subset _ _ hb)
  | succ n ih =>
    intro l S0 S1 S h b hb
    simp only [gammingGo, List.mem_append] at hb
    rcases hb with hb | hb
    · exact mem_toBytes_lt hb
    · exact ih (l.drop 8) _ _ _ (fun x hx => h x (List.drop_subset _ _ hx)) b hb

/-! ## Round-trip lemmas -/

/-- `toBytes_bytesToU64` with the length given as an equation, for rewriting. -/
theorem toBytes_bytesToU64_of_length {bl : List Nat} {k : Nat} (hk : bl.length = k)
    (hb : ∀ b ∈ bl, b < 256) : toBytes k (bytesToU64 bl) = bl :=
  hk ▸ toBytes_bytesToU64 hb

/-- XORing a (possibly partial, zero-padded) tail block twice against the same
gamma restores it: the common tail step of both gamma modes. -/
theorem tail_xor_roundtrip (g : Nat) {bl : List Nat} (hb : ∀ b ∈ bl, b < 256)
    (hl : bl.length ≤ 8) :
    (toBytes 8 (bytesToU64 ((toBytes 8 (bytesToU64 bl ^^^ g)).take bl.length) ^^^ g)).take
        bl.length = bl := by
  rw [toBytes_take hl, toBytes_take hl, bytesToU64_toBytes]
  have h1 : (((bytesToU64 bl ^^^ g) % 2 ^ (8 * bl.length)) ^^^ g) % 2 ^ (8 * bl.length)
      = bytesToU64 bl % 2 ^ (8 * bl.length) := by
    rw [xor_mod_two_pow, Nat.mod_mod_of_dvd _ dvd_rfl, ← xor_mod_two_pow, xor_xor_cancel]
  exact (toBytes_congr h1).trans (toBytes_bytesToU64 hb)

theorem gwfGo_roundtrip (key : Nat → Nat) (table : Nat → Nat → Nat) :
    ∀ (n : Nat) (l : List Nat) (S : Nat), (∀ b ∈ l, b < 256) →
      n = (l.length - 1) / 8 →
      (gwfGo key table false n (gwfGo key table true n l S).1 S).1 = l := by
  intro n
  induction n with
  | zero =>
    intro l S hb hn
    have hlen : l.length ≤ 8 := by omega
    by_cases h0 : l.length = 0
    · have hnil : l = [] := List.length_eq_zero.mp h0
      subst hnil
      simp [gwfGo]
    · have hlen1 : ((toBytes 8 (bytesToU64 l ^^^ cycle_32Z key table S)).take l.length).length
          = l.length := by
        rw [List.length_take, length_toBytes]; omega
      simp only [gwfGo, if_neg h0, hlen1]
      exact tail_xor_roundtrip _ hb hlen
  | succ n ih =>
    intro l S hb hn
    have h9 : 9 ≤ l.length := by omega
    have htake8 : (l.take 8).length = 8 := by rw [List.length_take]; omega
    have hbt : ∀ b ∈ l.take 8, b < 256 := fun b hb' => hb b (List.take_subset _ _ hb')
    have hblock : bytesToU64 (l.take 8) < 2 ^ 64 := by
      have h := bytesToU64_lt hbt
      rw [htake8] at h
      exact h
    have hc : bytesToU64 (l.take 8) ^^^ cycle_32Z key table S < 2 ^ 64 :=
      Nat.xor_lt_two_pow hblock (cycle_32Z_lt key table S)
    simp only [gwfGo, Bool.false_eq_true, if_false, if_true, ite_true, ite_false]
    rw [List.take_left' (length_toBytes 8 _), List.drop_left' (length_toBytes 8 _)]
    rw [bytesToU64_toBytes, Nat.mod_eq_of_lt (by simpa using hc)]
    rw [xor_xor_cancel]
    rw [ih (l.drop 8) _ (fun x hx => hb x (List.drop_subset _ _ hx)) (by
      rw [List.length_drop]; omega)]
    rw [toBytes_bytesToU64_of_length htake8 hbt, List.take_append_drop]

theorem gammingGo_roundtrip (key : Nat → Nat) (table : Nat → Nat → Nat) :
    ∀ (n : Nat) (l : List Nat) (S0 S1 S : Nat), (∀ b ∈ l, b < 256) →
      n = (l.length - 1) / 8 →
      (gammingGo key table n (gammingGo key table n l S0 S1 S).1 S0 S1 S).1 = l := by
  intro n
  induction n with
  | zero =>
    intro l S0 S1 S hb hn
    have hlen : l.length ≤ 8 := by omega
    by_cases h0 : l.length = 0
    · have hnil : l = [] := List.length_eq_zero.mp h0
      subst hnil
      simp [gammingGo]
    · have hlen1 : ((toBytes 8 (bytesToU64 l ^^^ cycle_32Z key table S)).take l.length).length
          = l.length := by
        rw [List.length_take, length_toBytes]; omega
      simp only [gammingGo, if_neg h0, hlen1]
      exact tail_xor_roundtrip _ hb hlen
  | succ n ih =>
    intro l S0 S1 S hb hn
    have h9 : 9 ≤ l.length := by omega
    have htake8 : (l.take 8).length = 8 := by rw [List.length_take]; omega
    have hbt : ∀ b ∈ l.take 8, b < 256 := fun b hb' => hb b (List.take_subset _ _ hb')
    have hblock : bytesToU64 (l.take 8) < 2 ^ 64 := by
      have h := bytesToU64_lt hbt
      rw [htake8] at h
      exact h
    simp only [gammingGo]
    rw [List.take_left' (length_toBytes 8 _), List.drop_left' (length_toBytes 8 _)]
    rw [bytesToU64_toBytes, Nat.mod_eq_of_lt (by
      simpa using Nat.xor_lt_two_pow hblock (cycle_32Z_lt key table _))]
    rw [xor_xor_cancel]
    rw [ih (l.drop 8) _ _ _ (fun x hx => hb x (List.drop_subset _ _ hx)) (by
      rw [List.length_drop]; omega)]
    rw [toBytes_bytesToU64_of_length htake8 hbt, List.take_append_drop]

theorem srGo_roundtrip (key : Nat → Nat) (table : Nat → Nat → Nat) :
    ∀ (n : Nat) (l : List Nat), (∀ b ∈ l, b < 256) → l.length = 8 * n →
      srGo key table false n (srGo key table true n l) = l := by
  intro n
  induction n with
  | zero => intro l _ _; rfl
  | succ n ih =>
    intro l hb hn
    have htake8 : (l.take 8).length = 8 := by rw [List.length_take]; omega
    have hbt : ∀ b ∈ l.take 8, b < 256 := fun b hb' => hb b (List.take_subset _ _ hb')
    have hblock : bytesToU64 (l.take 8) < 2 ^ 64 := by
      have h := bytesToU64_lt hbt
      rw [htake8] at h
      exact h
    simp only [srGo, Bool.false_eq_true, if_false, if_true, ite_true, ite_false]
    rw [List.take_left' (length_toBytes 8 _), List.drop_left' (length_toBytes 8 _)]
    rw [bytesToU64_toBytes, Nat.mod_eq_of_lt (by
      simpa using cycle_32Z_lt key table (bytesToU64 (l.take 8)))]
    rw [cycle_32R_cycle_32Z key table hblock]
    rw [ih (l.drop 8) (fun x hx => hb x (List.drop_subset _ _ hx)) (by
      rw [List.length_drop]; omega)]
    rw [toBytes_bytesToU64_of_length htake8 hbt, List.take_append_drop]

/-! ## Spec-side definition for the MAC claim -/

/-- Modelled from the spec sentence for `computeMAC`: the buffer cut into
8-byte blocks, the final partial block zero-padded (`bytesToU64` of a short
list is exactly the zero-padded block value). -/
def macBlocks : List Nat → List Nat
  | [] => []
  | b :: rest =>
    bytesToU64 ((b :: rest).take 8) :: macBlocks ((b :: rest).drop 8)
termination_by l => l.length
decreasing_by simp; omega

/-- The spec's description of `computeMAC`: fold
`accumulator = reducedCycle(accumulator XOR block)` from a zero accumulator
over all blocks (zero-padded tail included) and keep the low 32 bits. -/
def specMAC (key : Nat → Nat) (table : Nat → Nat → Nat) (data : List Nat) : Nat :=
  ((macBlocks data).foldl (fun acc b => cycle_16Z key table (acc ^^^ b)) 0) % 2 ^ 32

theorem imiGo_eq_foldl (key : Nat → Nat) (table : Nat → Nat → Nat) :
    ∀ (n : Nat) (l : List Nat) (S : Nat), n = (l.length - 1) / 8 →
      imiGo key table n l S =
        (macBlocks l).foldl (fun acc b => cycle_16Z key table (acc ^^^ b)) S := by
  intro n
  induction n with
  | zero =>
    intro l S hn
    cases l with
    | nil => simp [imiGo, macBlocks]
    | cons b rest =>
      have hlen : (b :: rest).length ≤ 8 := by
        simp only [List.length_cons] at hn ⊢; omega
      have hdrop : (b :: rest).drop 8 = [] := List.drop_eq_nil_of_le hlen
      have htake : (b :: rest).take 8 = b :: rest := List.take_of_length_le hlen
      rw [macBlocks, hdrop, htake]
      simp [imiGo, macBlocks]
  | succ n ih =>
    intro l S hn
    have h9 : 9 ≤ l.length := by omega
    cases l with
    | nil => simp at h9
    | cons b rest =>
      rw [macBlocks]
      simp only [imiGo, List.foldl_cons]
      exact ih _ _ (by simp only [List.length_drop, List.length_cons] at hn ⊢; omega)

/-! ## Claim theorems -/

/-- **C1.** For every key, substitution table, and byte buffer whose length is
a multiple of 8, `simpleReplace` with `encrypt = true` followed by
`simpleReplace` with `encrypt = false` restores the buffer; and the 32-round
decrypt cycle `cycle_32R` inverts the 32-round encrypt cycle `cycle_32Z` on
every 64-bit block. -/
theorem C1_transformSimple_roundtrip (key : Nat → Nat) (table : Nat → Nat → Nat)
    (data : List Nat) (hb : ∀ b ∈ data, b < 256) (hlen : data.length % 8 = 0) :
    (simpleReplace key table (simpleReplace key table data true).2 false).2 = data
    ∧ ∀ x < 2 ^ 64, cycle_32R key table (cycle_32Z key table x) = x := by
  refine ⟨?_, fun x hx => cycle_32R_cycle_32Z key table hx⟩
  have h8 : 8 * (data.length / 8) = data.length := by omega
  have hlen2 : (srGo key table true (data.length / 8) data).length = data.length :=
    length_srGo key table true _ data (by omega)
  simp only [simpleReplace, hlen, ne_eq, not_true_eq_false, not_false_eq_true,
    if_neg, if_pos, ite_false, ite_true]
  rw [hlen2]
  simp only [hlen, ite_false, ite_true, if_neg, if_pos, not_true_eq_false]
  exact srGo_roundtrip key table _ data hb (by omega)

/-- Witness for C1 at a concrete key, table and 16-byte buffer. -/
theorem C1_transformSimple_roundtrip_witness :
    ((∀ b ∈ [1, 2, 3, 4, 5, 6, 7, 8, 9, 10, 11, 12, 13, 14, 15, 255], b < 256)
      ∧ ([1, 2, 3, 4, 5, 6, 7, 8, 9, 10, 11, 12, 13, 14, 15,
          (255 : Nat)] : List Nat).length % 8 = 0)
    ∧ ((simpleReplace (fun k => k + 1) (fun i j => (i + j) % 16)
          (simpleReplace (fun k => k + 1) (fun i j => (i + j) % 16)
            [1, 2, 3, 4, 5, 6, 7, 8, 9, 10, 11, 12, 13, 14, 15, 255] true).2 false).2 =
        [1, 2, 3, 4, 5, 6, 7, 8, 9, 10, 11, 12, 13, 14, 15, 255]
      ∧ cycle_32R (fun k => k + 1) (fun i j => (i + j) % 16)
          (cycle_32Z (fun k => k + 1) (fun i j => (i + j) % 16) 0xfedcba9876543210) =
        0xfedcba9876543210) := by
  refine ⟨⟨by decide, by decide⟩, ?_⟩
  have h := C1_transformSimple_roundtrip (fun k => k + 1) (fun i j => (i + j) % 16)
    [1, 2, 3, 4, 5, 6, 7, 8, 9, 10, 11, 12, 13, 14, 15, 255] (by decide) (by decide)
  exact ⟨h.1, h.2 0xfedcba9876543210 (by norm_num)⟩

/-- **C5.** For every key/table, initial synchro and buffer of any length,
`gammingWF` encrypt followed by `gammingWF` decrypt from the same initial
synchro restores the buffer. -/
theorem C5_transformGammaFeedback_roundtrip (key : Nat → Nat) (table : Nat → Nat → Nat)
    (data : List Nat) (S : Nat) (hb : ∀ b ∈ data, b < 256) :
    (gammingWF key table (gammingWF key table data S true).1 S false).1 = data := by
  unfold gammingWF
  rw [length_gwfGo key table true _ data S rfl]
  exact gwfGo_roundtrip key table _ data S hb rfl

/-- Witness for C5 at a concrete key, table, synchro and 13-byte buffer
(exercising the partial-tail path). -/
theorem C5_transformGammaFeedback_roundtrip_witness :
    (∀ b ∈ [10, 20, 30, 40, 50, 60, 70, 80, 90, 100, 110, 120, 130], b < 256)
    ∧ (gammingWF (fun k => 2 * k + 3) (fun i j => (i * j + 5) % 16)
        (gammingWF (fun k => 2 * k + 3) (fun i j => (i * j + 5) % 16)
          [10, 20, 30, 40, 50, 60, 70, 80, 90, 100, 110, 120, 130] 0xdeadbeef true).1
        0xdeadbeef false).1 =
      [10, 20, 30, 40, 50, 60, 70, 80, 90, 100, 110, 120, 130] :=
  ⟨by decide, C5_transformGammaFeedback_roundtrip (fun k => 2 * k + 3)
    (fun i j => (i * j + 5) % 16) [10, 20, 30, 40, 50, 60, 70, 80, 90, 100, 110, 120, 130]
    0xdeadbeef (by decide)⟩

/-- **C6.** For every key/table, initial synchro and buffer of any length,
running `gamming` twice with the synchro reset to the same initial value
(the keystream depends only on the synchro, not on the data) restores the
buffer. -/
theorem C6_transformGamma_roundtrip (key : Nat → Nat) (table : Nat → Nat → Nat)
    (data : List Nat) (S0 : Nat) (hb : ∀ b ∈ data, b < 256) :
    (gamming key table (gamming key table data S0).1 S0).1 = data := by
  simp only [gamming]
  rw [length_gammingGo key table _ data _ _ _ rfl]
  exact gammingGo_roundtrip key table _ data _ _ _ hb rfl

/-- Witness for C6 at a concrete key, table, synchro and 11-byte buffer. -/
theorem C6_transformGamma_roundtrip_witness :
    (∀ b ∈ [0, 1, 2, 3, 255, 254, 253, 252, 7, 8, 9], b < 256)
    ∧ (gamming (fun k => 7 * k + 11) (fun i j => (3 * i + j) % 16)
        (gamming (fun k => 7 * k + 11) (fun i j => (3 * i + j) % 16)
          [0, 1, 2, 3, 255, 254, 253, 252, 7, 8, 9] 0x123456789).1 0x123456789).1 =
      [0, 1, 2, 3, 255, 254, 253, 252, 7, 8, 9] :=
  ⟨by decide, C6_transformGamma_roundtrip (fun k => 7 * k + 11)
    (fun i j => (3 * i + j) % 16) [0, 1, 2, 3, 255, 254, 253, 252, 7, 8, 9]
    0x123456789 (by decide)⟩

/-- **C7.** For every key/table and buffer, `imiIns` equals the fold that
starts from a zero accumulator, steps every 8-byte block (zero-padded tail
included) through `accumulator = cycle_16Z (accumulator XOR block)`, and
returns the low 32 bits of the result. Being a pure function of key, table
and data, it is deterministic and independent of any synchro state. -/
theorem C7_computeMAC_eq_spec (key : Nat → Nat) (table : Nat → Nat → Nat)
    (data : List Nat) : imiIns key table data = specMAC key table data := by
  unfold imiIns specMAC
  rw [imiGo_eq_foldl key table _ data 0 rfl, and_low_mask]

/-- **C8.** `simpleReplace` fails exactly on lengths that are not multiples of
8; on failure the buffer is returned unmodified; on every multiple of 8 it
succeeds. -/
theorem C8_transformSimple_invalid_length (key : Nat → Nat) (table : Nat → Nat → Nat)
    (data : List Nat) (enc : Bool) :
    ((simpleReplace key table data enc).1 = false ↔ data.length % 8 ≠ 0)
    ∧ (data.length % 8 ≠ 0 → (simpleReplace key table data enc).2 = data)
    ∧ (data.length % 8 = 0 → (simpleReplace key table data enc).1 = true) := by
  unfold simpleReplace
  by_cases h : data.length % 8 = 0 <;> simp [h]

/-- Witness for C8 at a concrete 3-byte (invalid) buffer. -/
theorem C8_transformSimple_invalid_length_witness :
    ((simpleReplace (fun _ => 0) (fun _ _ => 0) [1, 2, 3] true).1 = false ↔
        ([1, 2, 3] : List Nat).length % 8 ≠ 0)
    ∧ (([1, 2, 3] : List Nat).length % 8 ≠ 0 →
        (simpleReplace (fun _ => 0) (fun _ _ => 0) [1, 2, 3] true).2 = [1, 2, 3])
    ∧ (([1, 2, 3] : List Nat).length % 8 = 0 →
        (simpleReplace (fun _ => 0) (fun _ _ => 0) [1, 2, 3] true).1 = true) :=
  C8_transformSimple_invalid_length (fun _ => 0) (fun _ _ => 0) [1, 2, 3] true

/-! ## Spec-side definition for the round-function claim -/

/-- Modelled from the spec: split `sum` into eight 4-bit nibbles, substitute
nibble `i` through `SubstitutionTable[i][nibble_i]`, and reassemble the eight
nibbles into a 32-bit value. -/
def specSubstitute (table : Nat → Nat → Nat) (sum : Nat) : Nat :=
  (List.range 8).foldl (fun acc i => acc + table i (sum / 2 ^ (4 * i) % 16) * 2 ^ (4 * i)) 0

/-- Modelled from the spec: rotate a 32-bit value left by 11 bits. -/
def specRotL11 (v : Nat) : Nat := ((v <<< 11) % 2 ^ 32) ||| (v >>> (32 - 11))

/-- Modelled from the spec: one round returns `(N1 << 32) | (R XOR N2)` where
`R` rotates the substituted `sum = (N1 + Key[k]) mod (2^32 - 1)`. -/
def specMainStep (key : Nat → Nat) (table : Nat → Nat → Nat) (data k : Nat) : Nat :=
  let N1 := data % 2 ^ 32
  let N2 := data / 2 ^ 32
  let R := specRotL11 (specSubstitute table ((N1 + key k) % (2 ^ 32 - 1)))
  (N1 <<< 32) ||| (R ^^^ N2)

/-- Nibble `n/4` of `s` read through the C mask-and-shift equals the
arithmetic nibble. -/
theorem nib_eq (s n : Nat) : (s &&& (15 <<< n)) >>> n = s / 2 ^ n % 16 := by
  have h15 : (15 : Nat) = 2 ^ 4 - 1 := by norm_num
  have h16 : (16 : Nat) = 2 ^ 4 := by norm_num
  apply Nat.eq_of_testBit_eq
  intro i
  rw [h15, h16]
  simp only [Nat.testBit_shiftRight, Nat.testBit_and, Nat.testBit_shiftLeft,
    Nat.testBit_two_pow_sub_one, Nat.testBit_mod_two_pow]
  have hdiv : (s / 2 ^ n).testBit i = s.testBit (n + i) := by
    rw [← Nat.shiftRight_eq_div_pow, Nat.testBit_shiftRight]
  rw [hdiv]
  simp [Nat.add_sub_cancel_left, Bool.and_comm]

/-- With all used table entries in `[0, 15]`, the C `+=`-with-`uint32`-wrap
nibble accumulation equals the spec's exact nibble reassembly. -/
theorem substitute_eq (table : Nat → Nat → Nat) (s : Nat)
    (htab : ∀ i < 8, ∀ j < 16, table i j ≤ 15) :
    (List.range 8).foldl
      (fun acc i => (acc + (table i ((s &&& mask i) >>> (i * 4))) <<< (i * 4)) % 2 ^ 32) 0
      = specSubstitute table s := by
  have h0 : (s &&& mask 0) >>> (0 * 4) = s / 2 ^ (4 * 0) % 16 := nib_eq s 0
  have h1 : (s &&& mask 1) >>> (1 * 4) = s / 2 ^ (4 * 1) % 16 := nib_eq s 4
  have h2 : (s &&& mask 2) >>> (2 * 4) = s / 2 ^ (4 * 2) % 16 := nib_eq s 8
  have h3 : (s &&& mask 3) >>> (3 * 4) = s / 2 ^ (4 * 3) % 16 := nib_eq s 12
  have h4 : (s &&& mask 4) >>> (4 * 4) = s / 2 ^ (4 * 4) % 16 := nib_eq s 16
  have h5 : (s &&& mask 5) >>> (5 * 4) = s / 2 ^ (4 * 5) % 16 := nib_eq s 20
  have h6 : (s &&& mask 6) >>> (6 * 4) = s / 2 ^ (4 * 6) % 16 := nib_eq s 24
  have h7 : (s &&& mask 7) >>> (7 * 4) = s / 2 ^ (4 * 7) % 16 := nib_eq s 28
  have hr : List.range 8 = [0, 1, 2, 3, 4, 5, 6, 7] := rfl
  unfold specSubstitute
  rw [hr]
  simp only [List.foldl_cons, List.foldl_nil, h0, h1, h2, h3, h4, h5, h6, h7,
    Nat.shiftLeft_eq]
  have t0 := htab 0 (by norm_num) (s / 2 ^ (4 * 0) % 16) (Nat.mod_lt _ (by norm_num))
  have t1 := htab 1 (by norm_num) (s / 2 ^ (4 * 1) % 16) (Nat.mod_lt _ (by norm_num))
  have t2 := htab 2 (by norm_num) (s / 2 ^ (4 * 2) % 16) (Nat.mod_lt _ (by norm_num))
  have t3 := htab 3 (by norm_num) (s / 2 ^ (4 * 3) % 16) (Nat.mod_lt _ (by norm_num))
  have t4 := htab 4 (by norm_num) (s / 2 ^ (4 * 4) % 16) (Nat.mod_lt _ (by norm_num))
  have t5 := htab 5 (by norm_num) (s / 2 ^ (4 * 5) % 16) (Nat.mod_lt _ (by norm_num))
  have t6 := htab 6 (by norm_num) (s / 2 ^ (4 * 6) % 16) (Nat.mod_lt _ (by norm_num))
  have t7 := htab 7 (by norm_num) (s / 2 ^ (4 * 7) % 16) (Nat.mod_lt _ (by norm_num))
  norm_num at t0 t1 t2 t3 t4 t5 t6 t7 ⊢
  omega

/-- **C2.** For every 64-bit block, key index and substitution table with all
entries in `[0, 15]`, the round function computes exactly the spec's
arithmetic: `sum` modulo `2^32 - 1`, nibble substitution, 11-bit left
rotation, and reassembly as `(N1 << 32) | (R XOR N2)`. -/
theorem C2_mainStep_eq_spec (key : Nat → Nat) (table : Nat → Nat → Nat)
    (data k : Nat) (hd : data < 2 ^ 64) (htab : ∀ i < 8, ∀ j < 16, table i j ≤ 15) :
    mainStep key table data k = specMainStep key table data k := by
  have hdiv : data / 2 ^ 32 % 2 ^ 32 = data / 2 ^ 32 :=
    Nat.mod_eq_of_lt (by omega)
  have hrot : ∀ v : Nat, specRotL11 v = (v >>> (32 - 11)) ||| ((v <<< 11) % 2 ^ 32) :=
    fun v => Nat.lor_comm _ _
  simp only [mainStep, specMainStep, stepF]
  rw [and_low_mask, and_high_mask, hdiv, substitute_eq table _ htab, hrot]

/-- Witness for C2 at a concrete key, table, block and key index. -/
theorem C2_mainStep_eq_spec_witness :
    ((0x0123456789abcdef : Nat) < 2 ^ 64
      ∧ ∀ i < 8, ∀ j < 16, (fun i j => (i + 2 * j) % 16 : Nat → Nat → Nat) i j ≤ 15)
    ∧ mainStep (fun k => 5 * k + 1) (fun i j => (i + 2 * j) % 16) 0x0123456789abcdef 3 =
        specMainStep (fun k => 5 * k + 1) (fun i j => (i + 2 * j) % 16) 0x0123456789abcdef 3 :=
  ⟨⟨by norm_num, by decide⟩, C2_mainStep_eq_spec (fun k => 5 * k + 1)
    (fun i j => (i + 2 * j) % 16) 0x0123456789abcdef 3 (by norm_num) (by decide)⟩

/-! ## Final-synchro behaviour of the feedback mode -/

/-- At fuel 0 (buffer of at most 8 bytes) the tail step never touches `S`. -/
theorem gwfGo_zero_snd (key : Nat → Nat) (table : Nat → Nat → Nat) (enc : Bool)
    (l : List Nat) (S : Nat) : (gwfGo key table enc 0 l S).2 = S := by
  simp only [gwfGo]
  split <;> rfl

/-- The synchro returned by the `gammingWF` loop is the feedback value of its
last iteration: the block written (encrypting) or read (decrypting) at byte
offset `8 * (n - 1)`. -/
theorem gwfGo_snd (key : Nat → Nat) (table : Nat → Nat → Nat) (enc : Bool) :
    ∀ (n : Nat) (l : List Nat) (S : Nat), (∀ b ∈ l, b < 256) →
      n = (l.length - 1) / 8 → 0 < n →
      (gwfGo key table enc n l S).2 =
        bytesToU64 (((if enc then (gwfGo key table enc n l S).1 else l).drop
          (8 * (n - 1))).take 8) := by
  intro n
  induction n with
  | zero => intro l S _ _ h0; omega
  | succ n ih =>
    intro l S hb hn _
    have h9 : 9 ≤ l.length := by omega
    have htake8 : (l.take 8).length = 8 := by rw [List.length_take]; omega
    have hbt : ∀ b ∈ l.take 8, b < 256 := fun b hb' => hb b (List.take_subset _ _ hb')
    have hblock : bytesToU64 (l.take 8) < 2 ^ 64 := by
      have h := bytesToU64_lt hbt
      rw [htake8] at h
      exact h
    by_cases hn0 : n = 0
    · subst hn0
      cases enc with
      | false =>
        simp only [gwfGo, Bool.false_eq_true, if_false, ite_false,
          Nat.add_sub_cancel, Nat.mul_zero, List.drop_zero]
        split <;> rfl
      | true =>
        simp only [gwfGo, if_true, ite_true, Nat.add_sub_cancel, Nat.mul_zero,
          List.drop_zero]
        rw [List.take_left' (length_toBytes 8 _), bytesToU64_toBytes,
          Nat.mod_eq_of_lt (by
            simpa using Nat.xor_lt_two_pow hblock (cycle_32Z_lt key table S))]
        split <;> rfl
    · have hpos : 0 < n := Nat.pos_of_ne_zero hn0
      have hdrop : (l.drop 8).length = l.length - 8 := List.length_drop 8 l
      simp only [gwfGo]
      rw [ih (l.drop 8) _ (fun x hx => hb x (List.drop_subset _ _ hx)) (by omega) hpos]
      cases enc with
      | false =>
        simp only [Bool.false_eq_true, if_false, ite_false]
        rw [List.drop_drop]
        have harg : 8 + 8 * (n - 1) = 8 * (n + 1 - 1) := by omega
        rw [harg]
      | true =>
        simp only [if_true, ite_true]
        have harg : 8 * (n + 1 - 1) = (toBytes 8 (bytesToU64 (List.take 8 l) ^^^
            cycle_32Z key table S)).length + 8 * (n - 1) := by
          rw [length_toBytes]; omega
        rw [harg, ← List.drop_drop, List.drop_left]

/-- **C4 (amended).** In `gammingWF` only the main-loop steps update the
synchro — to the block written when encrypting and the block read when
decrypting (both the ciphertext block). The final full-or-partial block is
processed by the tail branch, which leaves `S` untouched. Hence on return the
in/out synchro equals the passed-in value when the buffer is at most 8 bytes,
and otherwise the written/read block of the *penultimate* 8-byte step, at
byte offset `8 * ((size - 1) / 8 - 1)` — not the last block. -/
theorem C4_transformGammaFeedback_final_sync (key : Nat → Nat) (table : Nat → Nat → Nat)
    (data : List Nat) (S : Nat) (enc : Bool) (hb : ∀ b ∈ data, b < 256) :
    (data.length ≤ 8 → (gammingWF key table data S enc).2 = S)
    ∧ (8 < data.length →
        (gammingWF key table data S enc).2 =
          bytesToU64 (((if enc then (gammingWF key table data S enc).1 else data).drop
            (8 * ((data.length - 1) / 8 - 1))).take 8)) := by
  constructor
  · intro h8
    unfold gammingWF
    have h0 : (data.length - 1) / 8 = 0 := by omega
    rw [h0]
    exact gwfGo_zero_snd key table enc data S
  · intro h8
    unfold gammingWF
    exact gwfGo_snd key table enc _ data S hb rfl (by omega)

/-- The all-zero key used for concrete counterexamples. -/
def zeroKey : Nat → Nat := fun _ => 0

/-- The all-zero substitution table used for concrete counterexamples. -/
def zeroTable : Nat → Nat → Nat := fun _ _ => 0

set_option maxRecDepth 40000 in
/-- Witness for the amended C4: an 8-byte call leaves the synchro untouched,
and on a 16-byte call the returned synchro is the feedback block of the
penultimate (here: first) step. -/
theorem C4_transformGammaFeedback_final_sync_witness :
    ((∀ b ∈ [1, 0, 0, 0, 0, 0, 0, 0], b < 256)
      ∧ ([1, 0, 0, 0, 0, 0, 0, 0] : List Nat).length ≤ 8
      ∧ (∀ b ∈ List.replicate 16 (0 : Nat), b < 256)
      ∧ 8 < (List.replicate 16 (0 : Nat)).length)
    ∧ (gammingWF zeroKey zeroTable [1, 0, 0, 0, 0, 0, 0, 0] 5 true).2 = 5
    ∧ (gammingWF zeroKey zeroTable (List.replicate 16 0) 5 false).2 =
        bytesToU64 ((((List.replicate 16 (0 : Nat))).drop
          (8 * ((16 - 1) / 8 - 1))).take 8) := by
  refine ⟨⟨by decide, by decide, by decide, by decide⟩, ?_, ?_⟩
  · exact (C4_transformGammaFeedback_final_sync zeroKey zeroTable
      [1, 0, 0, 0, 0, 0, 0, 0] 5 true (by decide)).1 (by decide)
  · have h := (C4_transformGammaFeedback_final_sync zeroKey zeroTable
      (List.replicate 16 0) 5 false (by decide)).2 (by decide)
    simpa using h

set_option maxRecDepth 40000 in
/-- **C4 (counterexample to the claim as stated).** With the all-zero
key/table: an 8-byte encrypting call returns the synchro unchanged (5), which
differs from the one block it consumed and from the one block it produced; and
in a 16-byte decrypting call the second output block does not equal the second
input block XORed with the cycle of the first *plaintext* (output) block — the
code feeds back the first ciphertext (input) block instead. -/
theorem C4_transformGammaFeedback_counterexample :
    ((gammingWF zeroKey zeroTable [1, 0, 0, 0, 0, 0, 0, 0] 5 true).2 ≠
        bytesToU64 (gammingWF zeroKey zeroTable [1, 0, 0, 0, 0, 0, 0, 0] 5 true).1
      ∧ (gammingWF zeroKey zeroTable [1, 0, 0, 0, 0, 0, 0, 0] 5 true).2 ≠
        bytesToU64 [1, 0, 0, 0, 0, 0, 0, 0])
    ∧ (gammingWF zeroKey zeroTable (List.replicate 16 0) 5 false).1.drop 8 ≠
        toBytes 8 (bytesToU64 ((List.replicate 16 (0 : Nat)).drop 8) ^^^
          cycle_32Z zeroKey zeroTable
            (bytesToU64 ((gammingWF zeroKey zeroTable
              (List.replicate 16 0) 5 false).1.take 8))) := by
  refine ⟨⟨?_, ?_⟩, ?_⟩ <;> decide

set_option maxRecDepth 40000 in
/-- **C3 (code-bug evidence).** `gamming` advances its two counters only in
the main loop (`for(i = 0; i + 8 < _size; i += 8)`), whose strict bound stops
before the last block; the tail branch then reuses the synchro of the
previous step. Hence on a 16-byte buffer the two 8-byte steps XOR against the
*same* keystream block: encrypting 16 zero bytes yields two identical —
and nonzero, so genuinely encrypted — output blocks. -/
theorem C3_transformGamma_tail_reuses_synchro :
    ((gamming zeroKey zeroTable (List.replicate 16 0) 0).1.take 8 =
        (gamming zeroKey zeroTable (List.replicate 16 0) 0).1.drop 8)
    ∧ (gamming zeroKey zeroTable (List.replicate 16 0) 0).1.take 8 ≠
        List.replicate 8 0 := by
  constructor <;> decide

/-! ## The random generator's synchro acceptance predicate (`RandomGen`) -/

/-- `RandomGen::isCurrentS`. Embedding notes, keeping the C semantics:
the bit probe `S & (1 << i)` is embedded as bit `i` of `S` — the evident
intent; in C the shift is done on a 32-bit `int`, which is undefined for
`i ≥ 31` — and the `uint8` counter wraps, hence `% 256`. The `uint8`
difference `diff = zero - (64 - zero)` equals `(2 * zero + 192) % 256`. The
`float` threshold `bound = 64 * 0.12 = 7.68` is compared against the integer
promotion of `diff` as the exact test `100 * diff ≥ 768` (resp.
`≤ -768`): no integer lies between `7.68` and its closest-float value, so
the embedding is exact. -/
def isCurrentS (S : Nat) : Bool :=
  let zero := (List.range 64).foldl (fun z i => if S.testBit i then (z + 1) % 256 else z) 0
  let diff := (2 * zero + 192) % 256
  if 768 ≤ 100 * diff ∨ (diff : Int) * 100 ≤ -768 then false else true

set_option maxRecDepth 40000 in
/-- **C9 (code-bug evidence).** A synchro with popcount 29 — well inside the
±12% band around 32 that the spec demands — is rejected, while its mirror
with popcount 35 is accepted: the unsigned-byte difference wraps negative
balances to ≥ 192, so the whole lower side of the band is rejected. -/
theorem C9_isCurrentS_rejects_low_popcount :
    isCurrentS (2 ^ 29 - 1) = false ∧ isCurrentS (2 ^ 35 - 1) = true := by
  constructor <;> decide

/-! ## Key/table initialisation (`Cryptographer::init`) -/

/-- `Cryptographer::init` key draws: `random()` is a platform PRNG, embedded
as an arbitrary draw stream `rand`; the loop takes 17 draws per row `i` — one
key word (`% 0xffffffff`) followed by 16 table entries. The `_rand` flag only
selects the seed (time vs 0), i.e. which stream `rand` is, and is therefore
not a parameter of the embedding. -/
def initKey (rand : Nat → Nat) (i : Nat) : Nat := rand (17 * i) % 0xffffffff

/-- `Cryptographer::init` substitution-table draws: entry `(i, j)` is the
`(17 i + 1 + j)`-th draw reduced `% 0xf` (= 15). -/
def initReplaceTable (rand : Nat → Nat) (i j : Nat) : Nat :=
  rand (17 * i + 1 + j) % 0xf

/-- **C10.** Whatever the draw stream (hence for either value of the `_rand`
flag), every substitution-table entry produced by `init` is `random() % 0xf`
and so lies in `[0, 14]`: the nibble value 15 never occurs. -/
theorem C10_init_table_entries_lt_15 (rand : Nat → Nat) :
    ∀ i < 8, ∀ j < 16, initReplaceTable rand i j < 15 := by
  intro i _ j _
  exact Nat.mod_lt _ (by norm_num)

/-- Witness for C10 at a concrete draw stream and the last table cell. -/
theorem C10_init_table_entries_lt_15_witness :
    (7 < 8 ∧ 15 < 16)
    ∧ initReplaceTable (fun n => n * n + 3) 7 15 < 15 :=
  ⟨⟨by decide, by decide⟩,
    C10_init_table_entries_lt_15 (fun n => n * n + 3) 7 (by decide) 15 (by decide)⟩

end Crypton
